import Mathlib

/-!
Verification of the session engine of `rust-htop` (src/main.rs) against its
natural-language specification.

The development shallowly embeds the program's data model and the pure parts
of its event loop:

* `Config`, `SortBy`, `App`, `ProcInfo` mirror the structs and enums of
  src/main.rs.  Fields holding external handles (`sys : System`,
  `last_updated : Instant`, the tui `table_state` except for its
  `selected` index) are modelled only where the claims need them.
* `f32` CPU values are modelled as `Option ℚ`: `none` models NaN (the one
  incomparable value class the claims mention), `some q` an ordinary value.
  `cmpF32` models `f32::partial_cmp`, which returns `None` on NaN.
* Fallible steps are modelled with `Option`: a `none` result of `sortCmp`
  models the `unwrap` inside the `sort_by` comparator aborting the program,
  and `runLoop` models the `?` early returns of `main`.
* Machine integers: `usize`/`isize` casts in `move_selection` are modelled
  exactly, as `Nat`/`Int` with two's-complement wrapping at `2 ^ 64`.
-/

namespace RustHtop

/-- Mirrors `struct Config { refresh_rate: u64, default_sort: String }`. -/
structure Config where
  refresh_rate : Nat
  default_sort : String
deriving DecidableEq, Repr

/-- Mirrors `enum SortBy { Cpu, Mem, Name }`. -/
inductive SortBy
  | Cpu
  | Mem
  | Name
deriving DecidableEq, Repr

/-- Model of an `f32` CPU percentage: `none` is NaN, `some q` a real value. -/
abbrev F32 := Option ℚ

/-- Mirrors `struct ProcInfo { pid, name, cpu, mem }` (the owned copy of
process info built in the draw closure).  `pid` is the process id as a
natural number, `mem` the memory in bytes (`u64`). -/
structure ProcInfo where
  pid : Nat
  name : String
  cpu : F32
  mem : Nat
deriving DecidableEq, Repr

/-- Mirrors the state-carrying fields of `struct App`.  The external handles
(`sys : System`, `last_updated : Instant`) are not state of the session
engine and are not modelled; `selected` is the `table_state.selected()`
index of the tui `TableState`. -/
structure App where
  refresh_rate : Nat
  search_query : String
  searching : Bool
  sort_by : SortBy
  descending : Bool
  selected : Option Nat
deriving DecidableEq, Repr

/-- Models the `match config.default_sort.as_str()` in `App::new`:
`"mem"` and `"name"` select their fields, everything else falls to `Cpu`. -/
def sortByOfString (s : String) : SortBy :=
  if s = "mem" then SortBy.Mem
  else if s = "name" then SortBy.Name
  else SortBy.Cpu

/-- Mirrors `App::new` (src/main.rs lines 41-57): query empty, not searching,
sort field from the config string, `descending: true`, no selection. -/
def App.new (config : Config) : App :=
  { refresh_rate := config.refresh_rate
    search_query := ""
    searching := false
    sort_by := sortByOfString config.default_sort
    descending := true
    selected := none }

/-- Models the config load in `main` (lines 67-70):
`toml::from_str(..).unwrap_or(Config { refresh_rate: 1000, default_sort: "cpu" })`.
The external TOML parser's outcome is the argument: `none` for a missing
file or any parse failure, `some c` for a successful parse. -/
def loadConfig (parsed : Option Config) : Config :=
  parsed.getD { refresh_rate := 1000, default_sort := "cpu" }

/-! ### Selection manager (`move_selection`, lines 185-189) -/

/-- `2 ^ 64`, the modulus of `usize`/`isize` two's-complement arithmetic. -/
def USIZE : Nat := 2 ^ 64

/-- Reinterpretation of a `usize` value as `isize` (`as isize`). -/
def usizeAsIsize (n : Nat) : Int :=
  if n % USIZE < 2 ^ 63 then ((n % USIZE : Nat) : Int)
  else ((n % USIZE : Nat) : Int) - (USIZE : Int)

/-- Cast of an `isize` value to `usize` (`as usize`): two's-complement wrap. -/
def isizeAsUsize (i : Int) : Nat := (i % (USIZE : Int)).toNat

/-- Mirrors `move_selection` (lines 185-189).  `selected` is the current
`table_state.selected()`, `rawLen` is `app.sys.processes().len()` (the raw
snapshot's length — not the displayed list's).  The function always calls
`select(Some(..))`, so the result is always `some`:
`some (isizeAsUsize (min (max i 0) (len - 1)))`. -/
def move_selection (selected : Option Nat) (delta : Int) (rawLen : Nat) : Option Nat :=
  let i : Int := usizeAsIsize (selected.getD 0) + delta
  let len : Int := usizeAsIsize rawLen
  some (isizeAsUsize (min (max i 0) (len - 1)))

/-! ### Strings: lowercasing, substring containment, pid rendering -/

/-- The ASCII uppercase/lowercase letter pairs. -/
def asciiUpper : List (Char × Char) :=
  [('A', 'a'), ('B', 'b'), ('C', 'c'), ('D', 'd'), ('E', 'e'), ('F', 'f'),
   ('G', 'g'), ('H', 'h'), ('I', 'i'), ('J', 'j'), ('K', 'k'), ('L', 'l'),
   ('M', 'm'), ('N', 'n'), ('O', 'o'), ('P', 'p'), ('Q', 'q'), ('R', 'r'),
   ('S', 's'), ('T', 't'), ('U', 'u'), ('V', 'v'), ('W', 'w'), ('X', 'x'),
   ('Y', 'y'), ('Z', 'z')]

/-- Models Rust `char` lowercasing on the ASCII range: an uppercase ASCII
letter maps to its lowercase pair, every other character is unchanged. -/
def charToLower (c : Char) : Char :=
  match asciiUpper.find? (fun p => p.fst == c) with
  | some p => p.snd
  | none => c

/-- Models Rust `str::to_lowercase` (characterwise, ASCII range). -/
def strToLower (s : String) : String := String.mk (s.data.map charToLower)

/-- `isSubstrOf needle haystack`: some contiguous run of `haystack` equals
`needle`.  Models Rust `str::contains` on the character level. -/
def isSubstrOf (needle : List Char) : List Char → Bool
  | [] => needle.isEmpty
  | c :: rest => needle.isPrefixOf (c :: rest) || isSubstrOf needle rest

/-- Models Rust `str::contains`: `strContains s q` is true when `s`
contains `q` as a substring. -/
def strContains (s q : String) : Bool := isSubstrOf q.data s.data

/-- The ten decimal digit characters. -/
def digitChars : List Char := ['0', '1', '2', '3', '4', '5', '6', '7', '8', '9']

/-- The decimal digit character for `d < 10` (defaulting inside the digit
list for out-of-range arguments, which never occur). -/
def digitChar (d : Nat) : Char := digitChars.getD d '0'

/-- Fuelled decimal rendering: most significant digit first. -/
def natDecimalAux : Nat → Nat → List Char
  | 0, _ => []
  | fuel + 1, n =>
    if n < 10 then [digitChar n]
    else natDecimalAux fuel (n / 10) ++ [digitChar (n % 10)]

/-- The decimal digits of `n`, most significant first. -/
def natDecimal (n : Nat) : List Char := natDecimalAux (n + 1) n

/-- Models `sysinfo::Pid`'s `Display`/`to_string()`: the usual decimal
representation of the process id. -/
def pidString (n : Nat) : String := String.mk (natDecimal n)

/-! ### Filter stage (draw closure, lines 136-139) -/

/-- Mirrors the search filter in the draw closure:
`if !app.search_query.is_empty() { let query = app.search_query.to_lowercase();`
`processes.retain(|p| p.name.to_lowercase().contains(&query) || p.pid.to_string().contains(&query)) }`. -/
def applyFilter (app : App) (processes : List ProcInfo) : List ProcInfo :=
  if app.search_query = "" then processes
  else
    processes.filter fun p =>
      strContains (strToLower p.name) (strToLower app.search_query) ||
        strContains (pidString p.pid) (strToLower app.search_query)

/-! ### Sort stage (`sort_processes`, lines 174-183)

Rust's `Vec::sort_by` is a stable ascending sort driven by a comparator.
It is modelled by `sortCmp`, a stable insertion sort whose comparator may
fail (`Option Ordering`): a `none` comparison models the
`partial_cmp(..).unwrap()` in the CPU branch aborting the program, and
makes the whole sort return `none`. -/

/-- The three-way comparison `a.cmp(&b)` of a linearly ordered value
(also `f32::partial_cmp` restricted to non-NaN values). -/
def cmpVal {K : Type} [LinearOrder K] (x y : K) : Ordering :=
  if x < y then Ordering.lt else if x = y then Ordering.eq else Ordering.gt

/-- Models `f32::partial_cmp`: `None` whenever either side is NaN. -/
def cmpF32 (x y : F32) : Option Ordering :=
  match x, y with
  | some a, some b => some (cmpVal a b)
  | _, _ => none

/-- Stable insertion of `x` into `s` (which sorts elements that were
originally after `x`): `x` is placed before the first element it does not
compare `gt` against.  A `none` comparison aborts the sort. -/
def insertCmp {α : Type} (cmp : α → α → Option Ordering) (x : α) : List α → Option (List α)
  | [] => some [x]
  | y :: ys =>
    match cmp x y with
    | none => none
    | some Ordering.gt => (insertCmp cmp x ys).map (fun l => y :: l)
    | some _ => some (x :: y :: ys)

/-- Stable ascending sort by a fallible comparator; models `Vec::sort_by`
with a comparator that may abort (see `insertCmp`). -/
def sortCmp {α : Type} (cmp : α → α → Option Ordering) : List α → Option (List α)
  | [] => some []
  | x :: xs => (sortCmp cmp xs).bind (insertCmp cmp x)

/-- Mirrors `sort_processes` (lines 174-183): sort ascending by the selected
field — CPU through the fallible `partial_cmp(..).unwrap()` comparator —
then reverse when `app.descending`. -/
def sort_processes (app : App) (processes : List ProcInfo) : Option (List ProcInfo) :=
  let sorted :=
    match app.sort_by with
    | SortBy.Cpu => sortCmp (fun a b => cmpF32 a.cpu b.cpu) processes
    | SortBy.Mem => sortCmp (fun a b => some (cmpVal a.mem b.mem)) processes
    | SortBy.Name => sortCmp (fun a b => some (cmpVal a.name b.name)) processes
  if app.descending then sorted.map List.reverse else sorted

/-- The filter-sort pipeline of the draw closure: filter the snapshot, then
sort it.  (`none` models the comparator abort.) -/
def computeView (app : App) (snapshot : List ProcInfo) : Option (List ProcInfo) :=
  sort_processes app (applyFilter app snapshot)

/-! ### Key handling (event match in `main`, lines 77-96) -/

/-- The crossterm key codes the match distinguishes. -/
inductive KeyCode
  | Char (c : Char)
  | Esc
  | Backspace
  | Up
  | Down
  | Other
deriving DecidableEq, Repr

/-- Models `String::pop`: remove the last character (no-op when empty). -/
def popStr (s : String) : String := String.mk s.data.dropLast

/-- Mirrors the key match in `main` (lines 77-96), arm for arm and in the
source's order; `rawLen` is `app.sys.processes().len()`, used by the
`Up`/`Down` arms.  The `Bool` is true exactly on the `break` arm (`'q'`).
Note the order of the `Char` tests: `'q'` and `'/'` come before the
`if app.searching` guard, while `'c'`, `'m'`, `'n'`, `'r'` come after it. -/
def handleKey (rawLen : Nat) (app : App) (k : KeyCode) : Bool × App :=
  match k with
  | KeyCode.Char c =>
    if c = 'q' then (true, app)
    else if c = '/' then (false, { app with searching := true, search_query := "" })
    else if app.searching then (false, { app with search_query := app.search_query.push c })
    else if c = 'c' then (false, { app with sort_by := SortBy.Cpu })
    else if c = 'm' then (false, { app with sort_by := SortBy.Mem })
    else if c = 'n' then (false, { app with sort_by := SortBy.Name })
    else if c = 'r' then (false, { app with descending := !app.descending })
    else (false, app)
  | KeyCode.Esc => (false, { app with searching := false, search_query := "" })
  | KeyCode.Backspace =>
    if app.searching then (false, { app with search_query := popStr app.search_query })
    else (false, app)
  | KeyCode.Up => (false, { app with selected := move_selection app.selected (-1) rawLen })
  | KeyCode.Down => (false, { app with selected := move_selection app.selected 1 rawLen })
  | KeyCode.Other => (false, app)

/-- The state effect of a key sequence: fold `handleKey` over the keys
(`'q'` has no state effect; it only breaks the loop). -/
def applyKeys (rawLen : Nat) (app : App) (ks : List KeyCode) : App :=
  ks.foldl (fun a k => (handleKey rawLen a k).2) app

/-- Printable-character and backspace inputs (the search-editing keys). -/
def isTextKey : KeyCode → Bool
  | KeyCode.Char _ => true
  | KeyCode.Backspace => true
  | _ => false

/-! ### Exit paths of `main` (terminal restoration) -/

/-- Raw-mode and alternate-screen flags of the terminal. -/
structure TermState where
  rawMode : Bool
  altScreen : Bool
deriving DecidableEq, Repr

/-- What the external world delivers to one loop iteration:
`pollErr`/`readErr` are `Err` results of `event::poll`/`event::read`
(propagated by `?`), `quiet` is `poll` returning false, `key k` a key event. -/
inductive IterEvent
  | pollErr
  | readErr
  | quiet
  | key (k : KeyCode)
deriving DecidableEq, Repr

/-- How `main` returned (`Ok`/`Err`) and the terminal state it left behind. -/
structure MainResult where
  ok : Bool
  term : TermState
deriving DecidableEq, Repr

/-- Mirrors the event loop of `main` (lines 74-167) together with its exit
paths.  Each script entry is the iteration's external input and whether
`terminal.draw` succeeds.  An `Err` from poll, read or draw is propagated by
`?` straight out of `main`, leaving the terminal state untouched; only the
`break` on `'q'` reaches lines 169-170 (`disable_raw_mode`,
`LeaveAlternateScreen`).  `none` means the script ended with the loop still
running. -/
def runLoop (rawLen : Nat) : TermState → App → List (IterEvent × Bool) → Option MainResult
  | _, _, [] => none
  | term, app, (ev, drawOk) :: rest =>
    match ev with
    | IterEvent.pollErr => some { ok := false, term := term }
    | IterEvent.readErr => some { ok := false, term := term }
    | IterEvent.quiet =>
      if drawOk then runLoop rawLen term app rest
      else some { ok := false, term := term }
    | IterEvent.key k =>
      let r := handleKey rawLen app k
      if r.1 then some { ok := true, term := { rawMode := false, altScreen := false } }
      else if drawOk then runLoop rawLen term r.2 rest
      else some { ok := false, term := term }

/-- `main` after a successful terminal acquisition (`enable_raw_mode`,
`EnterAlternateScreen`): run the loop with both flags set. -/
def runMain (rawLen : Nat) (app : App) (script : List (IterEvent × Bool)) : Option MainResult :=
  runLoop rawLen { rawMode := true, altScreen := true } app script

/-! ### Spec-side predicates -/

/-- The spec's name predicate: `name` case-insensitively contains `q`. -/
def ciContains (name q : String) : Bool := strContains (strToLower name) (strToLower q)

/-- The spec's ascending order on records for each sort field (for CPU the
modelled value is read off with `getD 0`, which agrees with the true value
whenever the record is not NaN). -/
def fieldLE : SortBy → ProcInfo → ProcInfo → Prop
  | SortBy.Cpu => fun a b => a.cpu.getD 0 ≤ b.cpu.getD 0
  | SortBy.Mem => fun a b => a.mem ≤ b.mem
  | SortBy.Name => fun a b => a.name ≤ b.name

/-- Equality of two records' sort keys, for each sort field. -/
def fieldEqB : SortBy → ProcInfo → ProcInfo → Bool
  | SortBy.Cpu => fun a b => decide (a.cpu.getD 0 = b.cpu.getD 0)
  | SortBy.Mem => fun a b => decide (a.mem = b.mem)
  | SortBy.Name => fun a b => decide (a.name = b.name)

/-! ### Helper lemmas: substrings, lowercasing, decimal digits -/

theorem mem_of_isSubstrOf {q : List Char} :
    ∀ {s : List Char}, isSubstrOf q s = true → ∀ c ∈ q, c ∈ s := by
  intro s
  induction s with
  | nil =>
    intro h c hc
    rw [isSubstrOf, List.isEmpty_iff] at h
    subst h
    simp at hc
  | cons a t ih =>
    intro h c hc
    rw [isSubstrOf, Bool.or_eq_true] at h
    rcases h with h | h
    · exact (List.isPrefixOf_iff_prefix.mp h).subset hc
    · exact List.mem_cons_of_mem a (ih h c hc)

theorem isSubstrOf_eq_false {q s : List Char} {c : Char} (hc : c ∈ q) (hs : c ∉ s) :
    isSubstrOf q s = false := by
  cases h : isSubstrOf q s with
  | false => rfl
  | true => exact absurd (mem_of_isSubstrOf h c hc) hs

theorem charToLower_spec (c : Char) :
    charToLower c = c ∨ (c ∉ digitChars ∧ charToLower c ∉ digitChars) := by
  unfold charToLower
  split
  · rename_i p hf
    right
    have hp : p ∈ asciiUpper := List.mem_of_find?_eq_some hf
    have hpred := List.find?_some hf
    have hpc : p.fst = c := eq_of_beq hpred
    have hall : ∀ x ∈ asciiUpper, x.fst ∉ digitChars ∧ x.snd ∉ digitChars := by decide
    obtain ⟨h1, h2⟩ := hall p hp
    exact ⟨hpc ▸ h1, h2⟩
  · exact Or.inl rfl

theorem digitChar_mem (d : Nat) : digitChar d ∈ digitChars := by
  by_cases h : d < 10
  · interval_cases d <;> decide
  · unfold digitChar
    rw [List.getD_eq_default]
    · decide
    · simp only [digitChars, List.length_cons, List.length_nil]
      omega

theorem mem_natDecimalAux (fuel n : Nat) : ∀ c ∈ natDecimalAux fuel n, c ∈ digitChars := by
  induction fuel generalizing n with
  | zero =>
    intro c hc
    simp [natDecimalAux] at hc
  | succ f ih =>
    intro c hc
    unfold natDecimalAux at hc
    by_cases h : n < 10
    · rw [if_pos h] at hc
      simp only [List.mem_singleton] at hc
      subst hc
      exact digitChar_mem n
    · rw [if_neg h, List.mem_append] at hc
      rcases hc with hc | hc
      · exact ih (n / 10) c hc
      · simp only [List.mem_singleton] at hc
        subst hc
        exact digitChar_mem (n % 10)

theorem isSubstrOf_map_charToLower {s : List Char} (hs : ∀ c ∈ s, c ∈ digitChars)
    (q : List Char) : isSubstrOf (q.map charToLower) s = isSubstrOf q s := by
  by_cases h : ∀ c ∈ q, charToLower c = c
  · have e : q.map charToLower = q := by
      have := List.map_congr_left (g := id) h
      simpa using this
    rw [e]
  · push_neg at h
    obtain ⟨c, hcq, hne⟩ := h
    rcases charToLower_spec c with he | ⟨h1, h2⟩
    · exact absurd he hne
    · have hc1 : c ∉ s := fun hmem => h1 (hs c hmem)
      have hc2 : charToLower c ∉ s := fun hmem => h2 (hs _ hmem)
      rw [isSubstrOf_eq_false hcq hc1,
        isSubstrOf_eq_false (List.mem_map_of_mem charToLower hcq) hc2]

theorem strContains_pidString_strToLower (n : Nat) (q : String) :
    strContains (pidString n) (strToLower q) = strContains (pidString n) q :=
  isSubstrOf_map_charToLower (mem_natDecimalAux (n + 1) n) q.data

/-! ### Helper lemmas: bounds of `move_selection` on a non-empty list -/

theorem move_selection_bound (selected : Option Nat) (delta : Int) (len : Nat)
    (h0 : 0 < len) (h1 : len < 2 ^ 63) :
    ∃ i, move_selection selected delta len = some i ∧ i < len := by
  have hlen : usizeAsIsize len = (len : Int) := by
    unfold usizeAsIsize USIZE
    rw [Nat.mod_eq_of_lt (by omega)]
    rw [if_pos h1]
  refine ⟨isizeAsUsize
      (min (max (usizeAsIsize (selected.getD 0) + delta) 0) ((len : Int) - 1)), ?_, ?_⟩
  · unfold move_selection
    rw [hlen]
  · set x := usizeAsIsize (selected.getD 0) + delta with hx
    have hc0 : (0 : Int) ≤ min (max x 0) ((len : Int) - 1) :=
      le_min (le_max_right x 0) (by omega)
    have hc1 : min (max x 0) ((len : Int) - 1) ≤ (len : Int) - 1 := min_le_right _ _
    unfold isizeAsUsize USIZE
    generalize hg : min (max x 0) ((len : Int) - 1) = c at hc0 hc1
    rw [Int.emod_eq_of_lt hc0 (by omega)]
    omega

/-! ### Helper lemmas: the stable sort behind `Vec::sort_by`

`sortCmp` with a comparator that is total on the input list (given by a key
into a linear order) is the stable ascending insertion sort `sortK`, which
is a permutation, is sorted by the key, and preserves the input's relative
order among elements with equal keys. -/

/-- Stable insertion of `x` into `s` by key (reference definition). -/
def orderedInsertK {α K : Type} [LinearOrder K] (key : α → K) (x : α) : List α → List α
  | [] => [x]
  | y :: ys =>
    if cmpVal (key x) (key y) = Ordering.gt then y :: orderedInsertK key x ys
    else x :: y :: ys

/-- Stable ascending insertion sort by key (reference definition). -/
def sortK {α K : Type} [LinearOrder K] (key : α → K) : List α → List α
  | [] => []
  | x :: xs => orderedInsertK key x (sortK key xs)

theorem cmpVal_eq_gt {K : Type} [LinearOrder K] (x y : K) :
    cmpVal x y = Ordering.gt ↔ y < x := by
  unfold cmpVal
  by_cases h1 : x < y
  · rw [if_pos h1]
    constructor
    · intro h
      exact Ordering.noConfusion h
    · intro h
      exact absurd h1 (asymm h)
  · by_cases h2 : x = y
    · rw [if_neg h1, if_pos h2]
      constructor
      · intro h
        exact Ordering.noConfusion h
      · intro h
        subst h2
        exact absurd h (lt_irrefl x)
    · rw [if_neg h1, if_neg h2]
      constructor
      · intro _
        exact lt_of_le_of_ne (le_of_not_lt h1) (fun e => h2 e.symm)
      · intro _
        rfl

theorem insertCmp_eq_orderedInsertK {α K : Type} [LinearOrder K]
    (cmp : α → α → Option Ordering) (key : α → K) (x : α) :
    ∀ s : List α, (∀ b ∈ s, cmp x b = some (cmpVal (key x) (key b))) →
      insertCmp cmp x s = some (orderedInsertK key x s) := by
  intro s
  induction s with
  | nil => intro _; rfl
  | cons y ys ih =>
    intro h
    have hy : cmp x y = some (cmpVal (key x) (key y)) := h y (List.mem_cons_self y ys)
    simp only [insertCmp, orderedInsertK, hy]
    cases hcv : cmpVal (key x) (key y) with
    | lt =>
      rw [if_neg (by decide)]
    | eq =>
      rw [if_neg (by decide)]
    | gt =>
      rw [ih (fun b hb => h b (List.mem_cons_of_mem y hb)), if_pos rfl]
      rfl

theorem orderedInsertK_perm {α K : Type} [LinearOrder K] (key : α → K) (x : α) :
    ∀ s : List α, (orderedInsertK key x s).Perm (x :: s) := by
  intro s
  induction s with
  | nil => exact List.Perm.refl _
  | cons y ys ih =>
    simp only [orderedInsertK]
    by_cases hg : cmpVal (key x) (key y) = Ordering.gt
    · rw [if_pos hg]
      exact (ih.cons y).trans (List.Perm.swap x y ys)
    · rw [if_neg hg]

theorem sortK_perm {α K : Type} [LinearOrder K] (key : α → K) :
    ∀ l : List α, (sortK key l).Perm l := by
  intro l
  induction l with
  | nil => exact List.Perm.refl _
  | cons x xs ih =>
    simp only [sortK]
    exact (orderedInsertK_perm key x (sortK key xs)).trans (ih.cons x)

theorem sortCmp_eq_sortK {α K : Type} [LinearOrder K]
    (cmp : α → α → Option Ordering) (key : α → K) :
    ∀ l : List α, (∀ a ∈ l, ∀ b ∈ l, cmp a b = some (cmpVal (key a) (key b))) →
      sortCmp cmp l = some (sortK key l) := by
  intro l
  induction l with
  | nil => intro _; rfl
  | cons x xs ih =>
    intro h
    simp only [sortCmp, sortK]
    rw [ih (fun a ha b hb =>
      h a (List.mem_cons_of_mem x ha) b (List.mem_cons_of_mem x hb))]
    exact insertCmp_eq_orderedInsertK cmp key x (sortK key xs)
      (fun b hb => h x (List.mem_cons_self x xs) b
        (List.mem_cons_of_mem x ((sortK_perm key xs).mem_iff.mp hb)))

theorem orderedInsertK_sorted {α K : Type} [LinearOrder K] (key : α → K) (x : α) :
    ∀ s : List α, List.Sorted (fun a b => key a ≤ key b) s →
      List.Sorted (fun a b => key a ≤ key b) (orderedInsertK key x s) := by
  intro s
  induction s with
  | nil =>
    intro _
    exact List.sorted_singleton x
  | cons y ys ih =>
    intro hs
    rw [List.sorted_cons] at hs
    obtain ⟨hy, hys⟩ := hs
    simp only [orderedInsertK]
    by_cases hg : cmpVal (key x) (key y) = Ordering.gt
    · rw [if_pos hg]
      rw [List.sorted_cons]
      constructor
      · intro b hb
        rcases List.mem_cons.mp ((orderedInsertK_perm key x ys).mem_iff.mp hb) with hb | hb
        · rw [hb]
          exact le_of_lt ((cmpVal_eq_gt (key x) (key y)).mp hg)
        · exact hy b hb
      · exact ih hys
    · have hxy : key x ≤ key y :=
        le_of_not_lt (fun hlt => hg ((cmpVal_eq_gt (key x) (key y)).mpr hlt))
      rw [if_neg hg, List.sorted_cons]
      constructor
      · intro b hb
        rcases List.mem_cons.mp hb with hb | hb
        · rw [hb]
          exact hxy
        · exact hxy.trans (hy b hb)
      · rw [List.sorted_cons]
        exact ⟨hy, hys⟩

theorem sortK_sorted {α K : Type} [LinearOrder K] (key : α → K) :
    ∀ l : List α, List.Sorted (fun a b => key a ≤ key b) (sortK key l) := by
  intro l
  induction l with
  | nil => exact List.sorted_nil
  | cons x xs ih =>
    simp only [sortK]
    exact orderedInsertK_sorted key x (sortK key xs) ih

theorem orderedInsertK_eq_takeDrop {α K : Type} [LinearOrder K] (key : α → K) (x : α) :
    ∀ s : List α, orderedInsertK key x s =
      s.takeWhile (fun y => decide (key y < key x)) ++
        x :: s.dropWhile (fun y => decide (key y < key x)) := by
  intro s
  induction s with
  | nil => rfl
  | cons y ys ih =>
    simp only [orderedInsertK, List.takeWhile_cons, List.dropWhile_cons]
    by_cases hg : key y < key x
    · rw [decide_eq_true hg, if_pos ((cmpVal_eq_gt (key x) (key y)).mpr hg)]
      rw [if_pos rfl, if_pos rfl, ih]
      rfl
    · rw [decide_eq_false hg, if_neg (fun h => hg ((cmpVal_eq_gt (key x) (key y)).mp h))]
      rw [if_neg (by decide), if_neg (by decide)]
      rfl

theorem sortK_stable {α K : Type} [LinearOrder K] (key : α → K) (k : K) :
    ∀ l : List α,
      (sortK key l).filter (fun a => decide (key a = k)) =
        l.filter (fun a => decide (key a = k)) := by
  intro l
  induction l with
  | nil => rfl
  | cons x xs ih =>
    simp only [sortK]
    rw [orderedInsertK_eq_takeDrop, List.filter_append]
    have hsplit : (sortK key xs).filter (fun a => decide (key a = k)) =
        ((sortK key xs).takeWhile (fun y => decide (key y < key x))).filter
            (fun a => decide (key a = k)) ++
          ((sortK key xs).dropWhile (fun y => decide (key y < key x))).filter
            (fun a => decide (key a = k)) := by
      rw [← List.filter_append, List.takeWhile_append_dropWhile]
    by_cases hx : key x = k
    · have htake : ((sortK key xs).takeWhile (fun y => decide (key y < key x))).filter
          (fun a => decide (key a = k)) = [] := by
        apply List.filter_eq_nil_iff.mpr
        intro a ha
        have hmt := List.mem_takeWhile_imp ha
        have hlt : key a < key x := of_decide_eq_true hmt
        simp only [decide_eq_true_eq]
        intro he
        rw [he, hx] at hlt
        exact lt_irrefl k hlt
      rw [htake, List.nil_append]
      rw [List.filter_cons_of_pos (by simp [hx]), List.filter_cons_of_pos (by simp [hx])]
      rw [htake, List.nil_append] at hsplit
      rw [← hsplit, ih]
    · rw [List.filter_cons_of_neg (by simp [hx]), List.filter_cons_of_neg (by simp [hx])]
      rw [← hsplit, ih]

/-- The bundle of sort facts used by the sort claims: with a comparator that
is total on `l` (given by `key`), `sortCmp` succeeds and returns `sortK`,
which is a permutation of `l`, sorted ascending by the key, and stable. -/
theorem stable_sort_package {α K : Type} [LinearOrder K]
    (cmp : α → α → Option Ordering) (key : α → K) (l : List α)
    (h : ∀ a ∈ l, ∀ b ∈ l, cmp a b = some (cmpVal (key a) (key b))) :
    sortCmp cmp l = some (sortK key l) ∧ (sortK key l).Perm l ∧
      List.Sorted (fun a b => key a ≤ key b) (sortK key l) ∧
      ∀ k : K, (sortK key l).filter (fun a => decide (key a = k)) =
        l.filter (fun a => decide (key a = k)) :=
  ⟨sortCmp_eq_sortK cmp key l h, sortK_perm key l, sortK_sorted key l,
    fun k => sortK_stable key k l⟩

/-! ### Concrete instances used by witnesses and counterexamples -/

/-- The startup state under the default configuration. -/
def app0 : App := App.new (loadConfig none)

/-- Records with CPU values 5.0, 5.0 and 2.0 (the spec's tie example). -/
def recA : ProcInfo := { pid := 1, name := "a", cpu := some 5, mem := 1 }

/-- Second record of the tied pair. -/
def recB : ProcInfo := { pid := 2, name := "b", cpu := some 5, mem := 2 }

/-- The record with the smallest CPU value in the tie example. -/
def recC : ProcInfo := { pid := 3, name := "c", cpu := some 2, mem := 3 }

/-- A record whose CPU value is NaN. -/
def recNaN : ProcInfo := { pid := 9, name := "x", cpu := none, mem := 0 }

/-- A record with CPU value 0.0. -/
def recZero : ProcInfo := { pid := 4, name := "z", cpu := some 0, mem := 0 }

/-- Sorting by CPU, descending (the startup default). -/
def cpuDescApp : App := { app0 with sort_by := SortBy.Cpu, descending := true }

/-- Sorting by CPU, ascending. -/
def cpuAscApp : App := { cpuDescApp with descending := false }

/-- A process whose name contains the letter a. -/
def procAlpha : ProcInfo := { pid := 1, name := "alpha", cpu := some 1, mem := 10 }

/-- A process matching neither by name nor by pid for the query `"a"`. -/
def procZzz : ProcInfo := { pid := 3, name := "zzz", cpu := some 2, mem := 20 }

/-- The state after pressing Down (with a 2-process snapshot), then opening
search and typing `a`. -/
def c2App : App := applyKeys 2 app0 [KeyCode.Down, KeyCode.Char '/', KeyCode.Char 'a']

/-- The spec's filter example, first record. -/
def pBash : ProcInfo := { pid := 1, name := "bash", cpu := some 0, mem := 0 }

/-- The spec's filter example, second record (the `"ch"` match). -/
def pChrome : ProcInfo := { pid := 2, name := "chrome", cpu := some 0, mem := 0 }

/-- The spec's filter example, third record. -/
def pInit : ProcInfo := { pid := 42, name := "init", cpu := some 0, mem := 0 }

/-- Search just opened (Active) with nothing typed yet. -/
def activeEmptyApp : App := { app0 with searching := true }

/-- A state whose query is `"ch"`. -/
def chApp : App := { app0 with search_query := "ch" }

/-- Actively searching with the sort field on Memory. -/
def searchingApp : App := { app0 with searching := true, sort_by := SortBy.Mem }

/-! ### Claim theorems -/

/-- C1: the claim says `move_selection` returns `None` iff the list is
empty, and otherwise an index in `[0, list_length - 1]`.  The code instead
always selects `Some`: at `list_length = 0` it computes
`i.max(0).min(0 - 1) = -1` and casts it with `as usize`, selecting the
out-of-range index `2 ^ 64 - 1` rather than `None`.  This theorem evaluates
the embedded code at that failing input (no selection, delta `+1`, empty
list). -/
theorem C1_move_selection_empty_eval :
    move_selection none 1 0 = some 18446744073709551615 := by decide

/-- C2 (counterexample): after `Down` with a raw snapshot of 2 processes and
then filtering down to 1 displayed row (query `"a"`), the selected index is
still `some 1` while the displayed list `[procAlpha]` has length 1 — the
index is outside `[0, displayed_row_count - 1]`, because the code clamps
only on navigation and against the raw snapshot's length, never after the
pipeline recomputation. -/
theorem C2_selection_out_of_displayed_range :
    c2App.selected = some 1 ∧
    computeView c2App [procAlpha, procZzz] = some [procAlpha] := by
  constructor
  · decide
  · decide

/-- C2 (amended): the clamp happens only on the explicit Up/Down navigation
commands, and is taken against the raw snapshot's process count: whenever
`0 < rawLen < 2 ^ 63`, the state after a navigation key has a selected index
inside `[0, rawLen - 1]`.  No re-clamp is applied after a pipeline
recomputation, so (per the counterexample) the index can exceed the
displayed list's bounds, and the selection starts as `None` even for a
non-empty list. -/
theorem C2_selection_clamp_amended (app : App) (rawLen : Nat)
    (h0 : 0 < rawLen) (h1 : rawLen < 2 ^ 63) :
    (∃ i, (handleKey rawLen app KeyCode.Up).2.selected = some i ∧ i < rawLen) ∧
    (∃ i, (handleKey rawLen app KeyCode.Down).2.selected = some i ∧ i < rawLen) :=
  ⟨move_selection_bound app.selected (-1) rawLen h0 h1,
   move_selection_bound app.selected 1 rawLen h0 h1⟩

/-- Witness for C2 (amended) at the concrete raw length 3. -/
theorem C2_selection_clamp_amended_witness :
    0 < 3 ∧ ∃ i, (handleKey 3 app0 KeyCode.Down).2.selected = some i ∧ i < 3 :=
  ⟨by decide, (C2_selection_clamp_amended app0 3 (by decide) (by decide)).2⟩

/-- C3: the claim says sorting by CPU never panics, ranking NaN lowest.  The
code compares with `a.cpu.partial_cmp(&b.cpu).unwrap()`, and `partial_cmp`
returns `None` when a side is NaN, so the `unwrap` panics.  In the embedding
the panic is the `none` result: sorting a two-element list containing a NaN
record produces no output at all. -/
theorem C3_cpu_sort_nan_eval :
    sort_processes cpuDescApp [recNaN, recZero] = none := by decide

/-- C4: the filter retains exactly the records whose name case-insensitively
contains the query or whose pid's decimal string contains the query, and is
a pass-through for the empty query — for every state, in particular also
while `searching` is true (the code only tests emptiness of the query).
The pid equivalence holds although the code matches the pid against the
lowercased query: lowercasing moves no character into or out of the digit
range, so containment in a decimal string is unchanged. -/
theorem C4_filter_semantics (app : App) (snapshot : List ProcInfo) :
    (app.search_query = "" → applyFilter app snapshot = snapshot) ∧
    (app.search_query ≠ "" → applyFilter app snapshot =
      snapshot.filter fun p =>
        ciContains p.name app.search_query ||
          strContains (pidString p.pid) app.search_query) := by
  constructor
  · intro h
    unfold applyFilter
    rw [if_pos h]
  · intro h
    unfold applyFilter
    rw [if_neg h]
    have e : (fun p : ProcInfo =>
        strContains (strToLower p.name) (strToLower app.search_query) ||
          strContains (pidString p.pid) (strToLower app.search_query)) =
        (fun p : ProcInfo =>
          ciContains p.name app.search_query ||
            strContains (pidString p.pid) app.search_query) := by
      funext p
      rw [strContains_pidString_strToLower]
      rfl
    rw [e]

/-- Witness for C4: with search open and an empty query the snapshot passes
through unchanged, and the spec's example query `"ch"` on
`[bash, chrome, init]` retains exactly `chrome`. -/
theorem C4_filter_semantics_witness :
    applyFilter activeEmptyApp [pBash, pChrome, pInit] = [pBash, pChrome, pInit] ∧
    applyFilter chApp [pBash, pChrome, pInit] = [pChrome] := by
  constructor
  · exact (C4_filter_semantics activeEmptyApp [pBash, pChrome, pInit]).1 rfl
  · have h := (C4_filter_semantics chApp [pBash, pChrome, pInit]).2 (by decide)
    rw [h]
    decide

/-- C5 (counterexample): the claim quantifies over every input list, but for
the CPU field and a list containing a NaN record the code panics (modelled:
the sort returns `none`), so no ascending stable sorted output exists for
that input. -/
theorem C5_cpu_nan_no_sorted_output :
    sort_processes cpuAscApp [recA, recNaN] = none := by decide

/-- C5 (amended): for every input list on which the selected field's
comparisons are all defined (no NaN CPU value when sorting by CPU; always,
for Memory and Name), the sort succeeds and is the stable ascending sort:
the ascending result is a permutation of the input, sorted by the selected
key, with records of equal keys in their original relative order; and the
descending result is exactly the reversal of the ascending one. -/
theorem C5_amended_stable_sort (app : App) (l : List ProcInfo)
    (h : app.sort_by = SortBy.Cpu → ∀ p ∈ l, p.cpu ≠ none) :
    ∃ asc : List ProcInfo,
      sort_processes { app with descending := false } l = some asc ∧
      sort_processes { app with descending := true } l = some asc.reverse ∧
      asc.Perm l ∧
      List.Sorted (fieldLE app.sort_by) asc ∧
      ∀ p : ProcInfo,
        asc.filter (fun q => fieldEqB app.sort_by q p) =
          l.filter (fun q => fieldEqB app.sort_by q p) := by
  obtain ⟨rr, sq, se, sb, de, sel⟩ := app
  cases sb with
  | Cpu =>
    have hcmp : ∀ a ∈ l, ∀ b ∈ l, cmpF32 a.cpu b.cpu =
        some (cmpVal (a.cpu.getD 0) (b.cpu.getD 0)) := by
      intro a ha b hb
      have ha2 := h rfl a ha
      have hb2 := h rfl b hb
      cases hca : a.cpu with
      | none => exact absurd hca ha2
      | some qa =>
        cases hcb : b.cpu with
        | none => exact absurd hcb hb2
        | some qb => rfl
    obtain ⟨heq, hperm, hsort, hstab⟩ :=
      stable_sort_package (fun a b => cmpF32 a.cpu b.cpu) (fun p => p.cpu.getD 0) l hcmp
    refine ⟨sortK (fun p => p.cpu.getD 0) l, heq, ?_, hperm, hsort,
      fun p => hstab (p.cpu.getD 0)⟩
    show (sortCmp (fun a b => cmpF32 a.cpu b.cpu) l).map List.reverse =
      some (sortK (fun p => p.cpu.getD 0) l).reverse
    rw [heq]
    rfl
  | Mem =>
    obtain ⟨heq, hperm, hsort, hstab⟩ :=
      stable_sort_package (fun a b => some (cmpVal a.mem b.mem)) (fun p => p.mem) l
        (fun a _ b _ => rfl)
    refine ⟨sortK (fun p : ProcInfo => p.mem) l, heq, ?_, hperm, hsort,
      fun p => hstab p.mem⟩
    show (sortCmp (fun a b => some (cmpVal a.mem b.mem)) l).map List.reverse =
      some (sortK (fun p : ProcInfo => p.mem) l).reverse
    rw [heq]
    rfl
  | Name =>
    obtain ⟨heq, hperm, hsort, hstab⟩ :=
      stable_sort_package (fun a b => some (cmpVal a.name b.name)) (fun p => p.name) l
        (fun a _ b _ => rfl)
    refine ⟨sortK (fun p : ProcInfo => p.name) l, heq, ?_, hperm, hsort, fun p => ?_⟩
    · show (sortCmp (fun a b => some (cmpVal a.name b.name)) l).map List.reverse =
        some (sortK (fun p : ProcInfo => p.name) l).reverse
      rw [heq]
      rfl
    · show (sortK (fun q : ProcInfo => q.name) l).filter
          (fun q => fieldEqB SortBy.Name q p) =
        l.filter (fun q => fieldEqB SortBy.Name q p)
      convert hstab p.name using 2 <;>
        · funext q
          exact decide_eq_decide.mpr Iff.rfl

/-- Witness for C5 (amended): the spec's example — CPU values
`[5.0, 5.0, 2.0]` in input order sort ascending to `[2.0, 5.0, 5.0]` with
the tied pair's original order preserved, and descending to the exact
reversal `[5.0, 5.0, 2.0]` with the tied pair reversed. -/
theorem C5_amended_stable_sort_witness :
    sort_processes cpuAscApp [recA, recB, recC] = some [recC, recA, recB] ∧
    sort_processes cpuDescApp [recA, recB, recC] = some [recB, recA, recC] := by
  obtain ⟨asc, h1, h2, -, -, -⟩ :=
    C5_amended_stable_sort cpuDescApp [recA, recB, recC] (fun _ => by decide)
  have e1 : sort_processes { cpuDescApp with descending := false } [recA, recB, recC] =
      some [recC, recA, recB] := by decide
  rw [h1] at e1
  have easc := Option.some.inj e1
  constructor
  · show sort_processes { cpuDescApp with descending := false } [recA, recB, recC] =
      some [recC, recA, recB]
    rw [h1, easc]
  · show sort_processes { cpuDescApp with descending := true } [recA, recB, recC] =
      some [recB, recA, recC]
    rw [h2, easc]
    rfl

/-- C6: a missing or unparsable configuration file yields the defaults
`refresh_rate = 1000`, `default_sort = "cpu"` (the parse outcome is the
`Option Config` fed to `loadConfig`; `none` covers both failure modes), the
session starts from them without error, and every `default_sort` string
other than `"mem"` and `"name"` — including `"cpu"` and unrecognized
values — maps the initial sort field to CPU. -/
theorem C6_config_fallback :
    loadConfig none = { refresh_rate := 1000, default_sort := "cpu" } ∧
    (App.new (loadConfig none)).refresh_rate = 1000 ∧
    (App.new (loadConfig none)).sort_by = SortBy.Cpu ∧
    ∀ s : String, s ≠ "mem" → s ≠ "name" → sortByOfString s = SortBy.Cpu := by
  refine ⟨rfl, rfl, rfl, ?_⟩
  intro s h1 h2
  unfold sortByOfString
  rw [if_neg h1, if_neg h2]

/-- Witness for C6 at an unrecognized string and at `"cpu"`. -/
theorem C6_config_fallback_witness :
    sortByOfString "garbage" = SortBy.Cpu ∧ sortByOfString "cpu" = SortBy.Cpu :=
  ⟨C6_config_fallback.2.2.2 "garbage" (by decide) (by decide),
   C6_config_fallback.2.2.2 "cpu" (by decide) (by decide)⟩

/-- C7 (counterexample): with search mode Active, pressing the sort key
`'c'` does not trigger sort-by-CPU: the `Char(c) if app.searching` match arm
precedes the `Char('c')` arm, so the character is appended to the query and
the sort field is left unchanged — refuting the claim that the sort keys
are evaluated before the search-mode guard. -/
theorem C7_sort_key_captured_by_search :
    (handleKey 0 searchingApp (KeyCode.Char 'c')).1 = false ∧
    (handleKey 0 searchingApp (KeyCode.Char 'c')).2.sort_by = SortBy.Mem ∧
    (handleKey 0 searchingApp (KeyCode.Char 'c')).2.search_query = "c" := by
  refine ⟨rfl, rfl, ?_⟩
  decide

/-- C7 (amended): only the quit key `'q'` (and `'/'`/`Esc`) is evaluated
before the search-mode guard — while Active it breaks the loop and is not
appended — whereas the sort keys `'c'`, `'m'`, `'n'`, `'r'` are evaluated
after the guard: while Active each is appended to the query and changes no
sort setting.  The non-character navigation keys Up/Down keep their global
effect while Active. -/
theorem C7_amended_precedence (app : App) (rawLen : Nat) (h : app.searching = true) :
    handleKey rawLen app (KeyCode.Char 'q') = (true, app) ∧
    (∀ c, c ∈ ['c', 'm', 'n', 'r'] →
      handleKey rawLen app (KeyCode.Char c) =
        (false, { app with search_query := app.search_query.push c })) ∧
    (handleKey rawLen app KeyCode.Up).2.selected =
      move_selection app.selected (-1) rawLen ∧
    (handleKey rawLen app KeyCode.Down).2.selected =
      move_selection app.selected 1 rawLen := by
  refine ⟨rfl, ?_, rfl, rfl⟩
  intro c hc
  fin_cases hc <;>
    · simp only [handleKey]
      rw [if_neg (by decide), if_neg (by decide), if_pos h]

/-- Witness for C7 (amended) in a concrete searching state. -/
theorem C7_amended_precedence_witness :
    handleKey 0 searchingApp (KeyCode.Char 'q') = (true, searchingApp) ∧
    handleKey 0 searchingApp (KeyCode.Char 'm') =
      (false, { searchingApp with search_query := searchingApp.search_query.push 'm' }) :=
  ⟨(C7_amended_precedence searchingApp 0 rfl).1,
   (C7_amended_precedence searchingApp 0 rfl).2.1 'm' (by decide)⟩

/-- C8: opening search sets Active with an empty query, and open followed by
any sequence of printable-character and backspace inputs followed by cancel
always ends with `search_query = ""` and search mode Inactive (the `Esc` arm
clears both unconditionally). -/
theorem C8_search_round_trip (rawLen : Nat) (app : App) (ks : List KeyCode)
    (hks : ∀ k ∈ ks, isTextKey k = true) :
    (handleKey rawLen app (KeyCode.Char '/')).2.searching = true ∧
    (handleKey rawLen app (KeyCode.Char '/')).2.search_query = "" ∧
    (applyKeys rawLen app (KeyCode.Char '/' :: (ks ++ [KeyCode.Esc]))).searching = false ∧
    (applyKeys rawLen app (KeyCode.Char '/' :: (ks ++ [KeyCode.Esc]))).search_query = "" := by
  refine ⟨rfl, rfl, ?_, ?_⟩
  · unfold applyKeys
    rw [List.foldl_cons, List.foldl_append, List.foldl_cons, List.foldl_nil]
    rfl
  · unfold applyKeys
    rw [List.foldl_cons, List.foldl_append, List.foldl_cons, List.foldl_nil]
    rfl

/-- Witness for C8 with the concrete intervening inputs `h`, `i`,
backspace. -/
theorem C8_search_round_trip_witness :
    (∀ k ∈ [KeyCode.Char 'h', KeyCode.Char 'i', KeyCode.Backspace], isTextKey k = true) ∧
    (applyKeys 0 app0 (KeyCode.Char '/' ::
        ([KeyCode.Char 'h', KeyCode.Char 'i', KeyCode.Backspace] ++ [KeyCode.Esc]))).searching
      = false ∧
    (applyKeys 0 app0 (KeyCode.Char '/' ::
        ([KeyCode.Char 'h', KeyCode.Char 'i', KeyCode.Backspace] ++ [KeyCode.Esc]))).search_query
      = "" := by
  have h := C8_search_round_trip 0 app0
    [KeyCode.Char 'h', KeyCode.Char 'i', KeyCode.Backspace] (by decide)
  exact ⟨by decide, h.2.2.1, h.2.2.2⟩

/-- C9: the claim says the terminal is restored on every exit path.  In the
code only the `break` path reaches `disable_raw_mode` and
`LeaveAlternateScreen` (lines 169-170); any error from `event::poll`,
`event::read` or `terminal.draw` is propagated by `?` straight out of
`main`.  Evaluating the loop model: a poll error exits with raw mode still
enabled and the alternate screen still active, while the normal quit path
restores both. -/
theorem C9_no_restore_on_error :
    runMain 0 app0 [(IterEvent.pollErr, true)] =
      some { ok := false, term := { rawMode := true, altScreen := true } } ∧
    runMain 0 app0 [(IterEvent.key (KeyCode.Char 'q'), true)] =
      some { ok := true, term := { rawMode := false, altScreen := false } } := by
  constructor
  · decide
  · decide

/-- C10: for every configuration — whatever `refresh_rate` and
`default_sort` hold — the session state built by `App::new` starts with
`descending = true`: the configuration selects only the sort field, never
the initial direction. -/
theorem C10_initial_descending (config : Config) : (App.new config).descending = true := rfl

end RustHtop
